import Mathlib

/-!
Verification of the EzGz streaming DEFLATE/GZIP decompressor (ezgz.hpp)
against its natural-language specification.

The definitions below are a shallow embedding of the decoder's core:
the bit-level reader (`BitReader`), the length/distance decoding helpers
(`parseLongerSize`, `parseLongerDistance`), the block-header state machine
(`DeflateReader::parseSome`), the fixed-Huffman symbol decoder
(`FixedCodeState::parseSome`), the code-length sequence reader
(`EncodedTable`'s constructor loop), the stored-block reader
(`LiteralState`), the output window (`ByteOutput`) and the line iterator
(`IDeflateArchive::readByLines`).

A bit stream is modelled as a `List Bool` in transmission order (the head
is the first bit read).  Machine integers are modelled as `Nat` (all the
relevant source values are non-negative ints); `Int` is used where the
source arithmetic can go negative.  Fallible operations return
`Except Err`; out-of-bounds accesses of the source's fixed `std::array`s
(undefined behaviour in C++) are modelled as the distinguished error
`Err.undefinedBehavior`.
-/

namespace EzGz

/-- Error kinds of the decoder (section 7 of the specification); the source
throws `std::runtime_error` / `std::logic_error` with a distinguishing
message, mapped here to one constructor per kind.  `undefinedBehavior`
marks executions where the C++ source indexes a fixed-size array out of
bounds (no defined result exists). -/
inductive Err where
  | unexpectedEndOfStream
  | malformedHeader
  | invalidHuffmanCode
  | corruptedLiteralBlock
  | backReferenceOutOfRange
  | checksumMismatch
  | internalBug
  | undefinedBehavior
deriving DecidableEq, Repr

deriving instance DecidableEq for Except

/-- Value of a bit list read most-significant-bit first: the bit read first
lands in the most significant position.  This is what `BitReader::getBits`
produces via the `reversedBytes` table: the low byte of `data` holds the
next 8 bits with the first bit at position 0; reversing the byte and
shifting right by `8 - amount` puts the first-read bit at the top of the
`amount`-bit result. -/
def huffVal (bits : List Bool) : ℕ :=
  bits.foldl (fun acc b => 2 * acc + b.toNat) 0

/-- Value of a bit list read least-significant-bit first (stream order),
as produced by `BitReader::getBitsForwardOrder` masking `data` with
`upperRemovals[amount]`. -/
def lsbVal (bits : List Bool) : ℕ :=
  bits.foldr (fun b acc => 2 * acc + b.toNat) 0

/-- `BitReader::getBits(amount)`: consume `amount ≤ 8` bits, Huffman
(reversed) order.  Exhausting the input mid-read is modelled as
`unexpectedEndOfStream`. -/
def getBits (amount : ℕ) (bits : List Bool) : Except Err (ℕ × List Bool) :=
  if 8 < amount then .error .undefinedBehavior
  else if bits.length < amount then .error .unexpectedEndOfStream
  else .ok (huffVal (bits.take amount), bits.drop amount)

/-- `BitReader::getBitsForwardOrder(amount)`: consume `amount ≤ 16` bits,
little-endian stream order.  An `amount > 16` would index the 17-entry
`upperRemovals` table out of bounds (and overflow the `uint16_t` result),
modelled as `undefinedBehavior`. -/
def getBitsForwardOrder (amount : ℕ) (bits : List Bool) : Except Err (ℕ × List Bool) :=
  if 16 < amount then .error .undefinedBehavior
  else if bits.length < amount then .error .unexpectedEndOfStream
  else .ok (lsbVal (bits.take amount), bits.drop amount)

/-! ## Block headers (`DeflateReader::parseSome`, new-block path) -/

/-- The three block substates constructed by `DeflateReader::parseSome`
(`LiteralState` for stored blocks, `FixedCodeState`, `DynamicCodeState`). -/
inductive BlockKind where
  | literal
  | fixedK
  | dynamicK
deriving DecidableEq, Repr

/-- New-block path of `DeflateReader::parseSome`: read 1 bit into
`wasLast`, read 2 bits (Huffman order) into `compressionType`, then
dispatch: `0b00 ↦ LiteralState`, `0b10 ↦ FixedCodeState`,
`0b01 ↦ DynamicCodeState`, otherwise throw ("Unknown type of block
compression", a `MalformedHeader`-kind error).  Returns the `wasLast`
bit, the stored 2-bit value, the substate kind and the remaining bits. -/
def readBlockHeader (bits : List Bool) : Except Err (ℕ × ℕ × BlockKind × List Bool) :=
  getBits 1 bits >>= fun (wl, r1) =>
  getBits 2 r1 >>= fun (ct, r2) =>
  if ct = 0 then .ok (wl, ct, .literal, r2)
  else if ct = 2 then .ok (wl, ct, .fixedK, r2)
  else if ct = 1 then .ok (wl, ct, .dynamicK, r2)
  else .error .malformedHeader

/-- Follows the specification's words, for comparison with
`readBlockHeader`: the BTYPE field value as transmitted is the 2-bit
little-endian integer `b1 + 2*b2` (RFC 1951 stores multi-bit fields
LSB-first); its bit-reversal `2*b1 + b2` is what `getBits 2` stores.
Dispatch is by the transmitted BTYPE: 00 stored, 01 fixed, 10 dynamic,
11 error. -/
def specBlockDispatch (b0 b1 b2 : Bool) : Except Err (ℕ × ℕ × BlockKind × List Bool) :=
  match b1.toNat + 2 * b2.toNat with
  | 0 => .ok (b0.toNat, 2 * b1.toNat + b2.toNat, .literal, [])
  | 1 => .ok (b0.toNat, 2 * b1.toNat + b2.toNat, .fixedK, [])
  | 2 => .ok (b0.toNat, 2 * b1.toNat + b2.toNat, .dynamicK, [])
  | _ => .error .malformedHeader

/-- C4 counterexample: for the header bits `0,1,0` the transmitted BTYPE
field is `1 + 2*0 = 1` (a fixed block), but the stored 2-bit value is
`2`, not `1`: the Huffman-order read reverses the two bits, so the claim
"the stored 2-bit value equals the BTYPE field value as transmitted" is
false (the dispatch still selects the fixed substate for BTYPE=01,
because the source compares against the reversed constants). -/
theorem readBlockHeader_stores_reversed_btype :
    readBlockHeader [false, true, false] = .ok (0, 2, BlockKind.fixedK, []) ∧
    (1 : ℕ) + 2 * 0 = 1 ∧ (2 : ℕ) ≠ 1 := by
  decide

/-- C4 (amended): `parseSome` reads 1 bit into `wasLast` and a 2-bit
BTYPE with the Huffman-order read; the stored 2-bit value is the
bit-reversal of the transmitted BTYPE field (so 00↔00, 01↔10, 11↔11),
and the dispatch — written against the reversed constants — constructs
the stored substate for BTYPE=00, the fixed substate for BTYPE=01, the
dynamic substate for BTYPE=10, and fails with a `MalformedHeader`-kind
error for BTYPE=11. -/
theorem readBlockHeader_dispatch (b0 b1 b2 : Bool) :
    readBlockHeader [b0, b1, b2] = specBlockDispatch b0 b1 b2 := by
  cases b0 <;> cases b1 <;> cases b2 <;> rfl

/-! ## Dynamic block header ranges (`DeflateReader::parseSome`, BTYPE=10 path) -/

/-- Range checks of the dynamic-block header (source lines 801–812):
`extraCodes` (HLIT) read from 5 bits, rejected above 29;
`distanceCodes = HDIST + 1`, rejected above 31; `codeLengthCount =
HCLEN + 4`, rejected above 19.  All three rejections throw
`MalformedHeader`-kind errors.  On success returns
`(257 + HLIT, HDIST + 1, HCLEN + 4)`. -/
def dynamicHeaderCheck (hlit hdist hclen : ℕ) : Except Err (ℕ × ℕ × ℕ) :=
  let extraCodes := hlit
  if extraCodes > 29 then .error .malformedHeader
  else
    let distanceCodes := hdist + 1
    if distanceCodes > 31 then .error .malformedHeader
    else
      let codeLengthCount := hclen + 4
      if codeLengthCount > 19 then .error .malformedHeader
      else .ok (257 + extraCodes, distanceCodes, codeLengthCount)

/-- C5 counterexample: HDIST = 31 lies inside the claim's accepted range
`[0,31]`, yet the source rejects it (`distanceCodes = 32 > 31` throws
"Impossible number of distance codes"). -/
theorem dynamicHeaderCheck_rejects_hdist31 :
    dynamicHeaderCheck 0 31 0 = .error Err.malformedHeader ∧ (31 : ℕ) ≤ 31 := by
  decide

/-- C5 (amended): for 5/5/4-bit header fields, the range checks accept
exactly HLIT ∈ [0,29], HDIST ∈ [0,30] and HCLEN ∈ [0,15] (the HCLEN
check can never fire for a 4-bit field); every accepted header yields
`(HLIT + 257, HDIST + 1, HCLEN + 4)` and every rejected one fails with a
`MalformedHeader`-kind error. -/
theorem dynamicHeaderCheck_ranges :
    ∀ hlit, hlit < 32 → ∀ hdist, hdist < 32 → ∀ hclen, hclen < 16 →
      (dynamicHeaderCheck hlit hdist hclen = .ok (257 + hlit, hdist + 1, hclen + 4) ↔
        (hlit ≤ 29 ∧ hdist ≤ 30)) ∧
      (dynamicHeaderCheck hlit hdist hclen = .error Err.malformedHeader ↔
        (30 ≤ hlit ∨ 31 ≤ hdist)) := by
  intro hlit h1 hdist h2 hclen h3
  simp only [dynamicHeaderCheck]
  split_ifs with ha hb hc <;> simp_all <;> omega

/-- Witness for `dynamicHeaderCheck_ranges` at HLIT=29, HDIST=30, HCLEN=15. -/
theorem dynamicHeaderCheck_ranges_witness :
    (dynamicHeaderCheck 29 30 15 = .ok (257 + 29, 30 + 1, 15 + 4) ↔
      (29 ≤ 29 ∧ 30 ≤ 30)) ∧
    (dynamicHeaderCheck 29 30 15 = .error Err.malformedHeader ↔
      (30 ≤ 29 ∨ 31 ≤ 30)) :=
  dynamicHeaderCheck_ranges 29 (by decide) 30 (by decide) 15 (by decide)

/-! ## Length and distance decoding (`BitReader::parseLongerSize`,
`BitReader::parseLongerDistance`, `DynamicCodeState::parseSome`) -/

/-- Reading `n = es.length ≤ 16` forward-order bits from `es ++ rest`
yields the LSB-first value of `es` and leaves `rest`. -/
theorem getBitsForwardOrder_append (n : ℕ) (es rest : List Bool)
    (h16 : n ≤ 16) (hlen : es.length = n) :
    getBitsForwardOrder n (es ++ rest) = .ok (lsbVal es, rest) := by
  subst hlen
  simp only [getBitsForwardOrder]
  rw [if_neg (by omega), if_neg (by simp only [List.length_append]; omega)]
  rw [List.take_left, List.drop_left]

/-- The `distanceOffsets` table of `BitReader::parseLongerDistance`. -/
def distanceOffsets : List ℕ :=
  [1, 2, 3, 4, 5, 7, 9, 13, 17, 25, 33, 49, 65, 97, 129] ++
  [193, 257, 385, 513, 769, 1025, 1537, 2049, 3073, 4097, 6145, 8193, 12289, 16385, 24577]

/-- `BitReader::parseLongerSize`: the source computes
`size = (((size & 0x3) << nextBits) | additionalBits) + ((1 << (size >> 2)) + 3)`
after `size++`, with `nextBits = (partOfSize - 7) >> 2`.  On naturals
`& 0x3` is `% 4`, `>> k` is `/ 2^k`, `<< k` is `* 2^k`, and the `|` is of
disjoint bit ranges (`additionalBits < 2^nextBits`), hence `+`. -/
def parseLongerSize (partOfSize : ℕ) (bits : List Bool) : Except Err (ℕ × List Bool) :=
  if partOfSize ≠ 31 then
    let nextBits := (partOfSize - 7) / 4
    getBitsForwardOrder nextBits bits >>= fun (additionalBits, rest) =>
      let size := partOfSize + 1
      .ok (size % 4 * 2 ^ nextBits + additionalBits + (2 ^ (size / 4) + 3), rest)
  else .ok (258, bits)

/-- `BitReader::parseLongerDistance`: reads `(partOfDistance - 3) >> 1`
extra bits and adds them to `distanceOffsets[partOfDistance - 1]`.  An
index past the 30-entry table (reachable for the invalid distance
symbols 30 and 31) is an out-of-bounds read in the source, modelled as
`undefinedBehavior`. -/
def parseLongerDistance (partOfDistance : ℕ) (bits : List Bool) : Except Err (ℕ × List Bool) :=
  let readMore := (partOfDistance - 3) / 2
  getBitsForwardOrder readMore bits >>= fun (moreBits, rest) =>
    if partOfDistance - 1 < distanceOffsets.length then
      .ok (distanceOffsets.getD (partOfDistance - 1) 0 + moreBits, rest)
    else .error .undefinedBehavior

/-- Length decoding of `DynamicCodeState::parseSome`:
`length = word - 254`, extended by `parseLongerSize` when above 10. -/
def codeLength (word : ℕ) (bits : List Bool) : Except Err (ℕ × List Bool) :=
  let length := word - 254
  if length > 10 then parseLongerSize length bits else .ok (length, bits)

/-- Distance decoding of `DynamicCodeState::parseSome`:
`distance = distanceCode.readWord() + 1`, extended by
`parseLongerDistance` when above 4. -/
def codeDistance (distWord : ℕ) (bits : List Bool) : Except Err (ℕ × List Bool) :=
  let distance := distWord + 1
  if distance > 4 then parseLongerDistance distance bits else .ok (distance, bits)

/-- Outcome of handling one decoded lit/length word in
`DynamicCodeState::parseSome`. -/
inductive DynAction where
  | litByte (b : ℕ)
  | endBlock
  | backref (len dist : ℕ)
deriving DecidableEq, Repr

/-- Word dispatch of `DynamicCodeState::parseSome`: words below 256 are
literal bytes, 256 ends the block, larger words start a back-reference.
`distWord` stands for the distance symbol returned by
`distanceCode.readWord()` (decoded from the stream between the length
extras and the distance extras; the Huffman table lookup itself is
abstracted as a parameter). -/
def dynamicHandleWord (word distWord : ℕ) (bits : List Bool) : Except Err (DynAction × List Bool) :=
  if word < 256 then .ok (.litByte word, bits)
  else if word = 256 then .ok (.endBlock, bits)
  else
    codeLength word bits >>= fun (len, r1) =>
    codeDistance distWord r1 >>= fun (d, r2) =>
    .ok (.backref len d, r2)

/-- The standard RFC 1951 base match lengths for symbols 265..284,
written from the specification's words for comparison with the source's
closed-form computation. -/
def specLengthBase : List ℕ :=
  [11, 13, 15, 17, 19, 23, 27, 31, 35, 43, 51, 59, 67, 83, 99, 115, 131, 163, 195, 227]

/-- Evaluation of `parseLongerSize` when exactly the extra bits are
prepended to the remaining stream. -/
theorem parseLongerSize_append (s : ℕ) (es rest : List Bool) (hs : s ≠ 31)
    (h16 : (s - 7) / 4 ≤ 16) (hlen : es.length = (s - 7) / 4) :
    parseLongerSize s (es ++ rest) =
      .ok ((s + 1) % 4 * 2 ^ ((s - 7) / 4) + lsbVal es + (2 ^ ((s + 1) / 4) + 3), rest) := by
  simp only [parseLongerSize]
  rw [if_pos hs, getBitsForwardOrder_append _ es rest h16 hlen]
  rfl

/-- Evaluation of `parseLongerDistance` when exactly the extra bits are
prepended to the remaining stream and the offset index is in range. -/
theorem parseLongerDistance_append (d : ℕ) (es rest : List Bool)
    (h16 : (d - 3) / 2 ≤ 16) (hlen : es.length = (d - 3) / 2)
    (hidx : d - 1 < distanceOffsets.length) :
    parseLongerDistance d (es ++ rest) =
      .ok (distanceOffsets.getD (d - 1) 0 + lsbVal es, rest) := by
  simp only [parseLongerDistance]
  rw [getBitsForwardOrder_append _ es rest h16 hlen]
  simp only [bind, Except.bind]
  rw [if_pos hidx]

/-- C6: length/distance symbol mapping of the dynamic decoding path.
Length symbols 257..264 map to lengths 3..10 with no extra bits;
265..284 read `(symbol - 261) >> 2` extra bits and produce the standard
RFC 1951 base length plus the extras; 285 maps to 258; word 256 ends the
block.  Distance symbols 0..3 map to distances 1..4; 4..29 read
`(symbol - 2) >> 1` extra bits and produce
`distanceOffsets[symbol]` plus the extras. -/
theorem dynamic_length_distance_mapping :
    (∀ word bits, 257 ≤ word → word ≤ 264 →
        codeLength word bits = .ok (word - 254, bits) ∧ 3 ≤ word - 254 ∧ word - 254 ≤ 10) ∧
    (∀ word es rest, 265 ≤ word → word ≤ 284 → es.length = (word - 261) / 4 →
        codeLength word (es ++ rest) =
          .ok (specLengthBase.getD (word - 265) 0 + lsbVal es, rest)) ∧
    (∀ bits, codeLength 285 bits = .ok (258, bits)) ∧
    (∀ distWord bits, dynamicHandleWord 256 distWord bits = .ok (.endBlock, bits)) ∧
    (∀ distWord bits, distWord ≤ 3 → codeDistance distWord bits = .ok (distWord + 1, bits)) ∧
    (∀ distWord es rest, 4 ≤ distWord → distWord ≤ 29 → es.length = (distWord - 2) / 2 →
        codeDistance distWord (es ++ rest) =
          .ok (distanceOffsets.getD distWord 0 + lsbVal es, rest)) := by
  refine ⟨?_, ?_, ?_, ?_, ?_, ?_⟩
  · intro word bits h1 h2
    simp only [codeLength]
    rw [if_neg (by omega)]
    exact ⟨rfl, by omega, by omega⟩
  · intro word es rest h1 h2 hlen
    have hgt : word - 254 > 10 := by omega
    simp only [codeLength]
    rw [if_pos hgt,
      parseLongerSize_append (word - 254) es rest (by omega) (by omega) (by omega)]
    simp only [Except.ok.injEq, Prod.mk.injEq]
    refine ⟨?_, trivial⟩
    interval_cases word <;> simp [specLengthBase, lsbVal] <;> omega
  · intro bits
    rfl
  · intro distWord bits
    rfl
  · intro distWord bits h
    simp only [codeDistance]
    rw [if_neg (by omega)]
  · intro distWord es rest h1 h2 hlen
    simp only [codeDistance]
    rw [if_pos (by omega),
      parseLongerDistance_append (distWord + 1) es rest (by omega) (by omega)
        (by rw [show distanceOffsets.length = 30 from rfl]; omega)]
    simp only [Nat.add_sub_cancel]

/-- Witness for `dynamic_length_distance_mapping`: symbol 266 with one
extra bit set decodes to length 13 + 1 = 14, and distance symbol 4 with
one zero extra bit decodes to distance 5. -/
theorem dynamic_length_distance_mapping_witness :
    (codeLength 266 ([true] ++ []) =
      .ok (specLengthBase.getD (266 - 265) 0 + lsbVal [true], [])) ∧
    (codeDistance 4 ([false] ++ []) =
      .ok (distanceOffsets.getD 4 0 + lsbVal [false], [])) :=
  ⟨dynamic_length_distance_mapping.2.1 266 [true] [] (by decide) (by decide) (by decide),
   dynamic_length_distance_mapping.2.2.2.2.2 4 [false] [] (by decide) (by decide) (by decide)⟩

/-! ## Back-reference distances are never zero (C9) -/

/-- Distance decoding of `FixedCodeState::parseSome`: read a flat 5-bit
distance code, add one, extend with `parseLongerDistance` when above 4. -/
def fixedDistanceRead (bits : List Bool) : Except Err (ℕ × List Bool) :=
  getBits 5 bits >>= fun (v, r1) =>
    let distance := v + 1
    if distance > 4 then parseLongerDistance distance r1 else .ok (distance, r1)

/-- Any distance produced by `parseLongerDistance` is at least 1, because
every entry of `distanceOffsets` is at least 1. -/
theorem parseLongerDistance_pos (p : ℕ) (bits : List Bool) (d : ℕ) (rest : List Bool)
    (h : parseLongerDistance p bits = .ok (d, rest)) : 1 ≤ d := by
  have htab : ∀ i, i < distanceOffsets.length → 1 ≤ distanceOffsets.getD i 0 := by decide
  simp only [parseLongerDistance, bind, Except.bind] at h
  split at h
  · exact absurd h (by simp)
  · split at h
    · rw [Except.ok.injEq, Prod.mk.injEq] at h
      have := htab (p - 1) (by assumption)
      omega
    · exact absurd h (by simp)

/-- C9: every back-reference distance handed to the output window is at
least 1: both the fixed path (`readingDistance.value() + 1`) and the
dynamic path (`distanceCode.readWord() + 1`) add one to a non-negative
decoded value, and `parseLongerDistance` only adds non-negative extras
to a table entry that is at least 1; hence `repeatSequence` can never be
called with distance 0. -/
theorem backreference_distance_positive :
    (∀ bits d rest, fixedDistanceRead bits = .ok (d, rest) → 1 ≤ d) ∧
    (∀ distWord bits d rest, codeDistance distWord bits = .ok (d, rest) → 1 ≤ d) := by
  constructor
  · intro bits d rest h
    simp only [fixedDistanceRead, bind, Except.bind] at h
    split at h
    · exact absurd h (by simp)
    · split at h
      · exact parseLongerDistance_pos _ _ _ _ h
      · rw [Except.ok.injEq, Prod.mk.injEq] at h
        omega
  · intro distWord bits d rest h
    simp only [codeDistance] at h
    split at h
    · exact parseLongerDistance_pos _ _ _ _ h
    · rw [Except.ok.injEq, Prod.mk.injEq] at h
      omega

/-- Witness for `backreference_distance_positive`: the all-zero 5-bit
distance code decodes to distance 1, and distance word 0 decodes to 1. -/
theorem backreference_distance_positive_witness :
    (fixedDistanceRead [false, false, false, false, false] = .ok (1, []) ∧ (1 : ℕ) ≤ 1) ∧
    (codeDistance 0 [] = .ok (1, []) ∧ (1 : ℕ) ≤ 1) :=
  ⟨⟨by decide, backreference_distance_positive.1 [false, false, false, false, false] 1 [] (by decide)⟩,
   ⟨by decide, backreference_distance_positive.2 0 [] 1 [] (by decide)⟩⟩

/-! ## Fixed-Huffman symbol decoding (`FixedCodeState::parseSome`, C1) -/

/-- Outcome of one iteration of the fixed-Huffman decode loop. -/
inductive FixedAction where
  | endBlock
  | litByte (b : ℕ)
  | backref (size dist : ℕ)
deriving DecidableEq, Repr

/-- One iteration of the inner loop of `FixedCodeState::parseSome`
(source lines 679–710), transcribed branch by branch:
`part = getBits(7)`; `part == 0` ends the block; `0b0011000 ≤ part ≤
0b1011111` extends by 1 bit to a literal `value - 0b00110000`;
`part ≥ 0b1100100` extends by 2 bits to a literal
`value - (0b110010000 - 144)`; otherwise a back-reference whose size
branch tests `part <= 0010111` — an OCTAL literal in the source, equal
to 4169, so the test is true for every 7-bit value and the second
branch (intended for the 8-bit codes of symbols 280..287, compare the
source comment "8 bit lookback, would be range 1100000 - 1100011") is
unreachable.  `BitGroup::getMore(n)` shifts the group left by `n` and
ors in `getBits(n)`, i.e. `value * 2^n + next`. -/
def fixedStep (bits : List Bool) : Except Err (FixedAction × List Bool) :=
  getBits 7 bits >>= fun (part, r1) =>
  if part = 0 then .ok (.endBlock, r1)
  else if 24 ≤ part ∧ part ≤ 95 then
    getBits 1 r1 >>= fun (b, r2) => .ok (.litByte (part * 2 + b - 48), r2)
  else if 100 ≤ part then
    getBits 2 r1 >>= fun (b2, r2) => .ok (.litByte (part * 4 + b2 - 256), r2)
  else
    (if part ≤ 4169 then .ok (part + 2, r1)
     else
       getBits 1 r1 >>= fun (b, r2) =>
       .ok ((((part * 2 + b : ℕ) : ℤ) + (25 - 192)).toNat, r2)) >>= fun (size0, r2) =>
    (if size0 > 10 then parseLongerSize size0 r2 else .ok (size0, r2)) >>= fun (size, r3) =>
    fixedDistanceRead r3 >>= fun (dist, r4) =>
    .ok (.backref size dist, r4)

/-- Follows the specification's words, for comparison with `fixedStep`:
peek 7 bits and decide the range by value; literals 0..143 are the 8-bit
codes 00110000..10111111, literals 144..255 the 9-bit codes
110010000..111111111, symbols 256..279 the 7-bit codes
0000000..0010111, and symbols 280..287 the 8-bit codes
11000000..11000111.  Returns the decoded symbol number. -/
def specFixedSymbol (bits : List Bool) : Except Err (ℕ × List Bool) :=
  getBits 7 bits >>= fun (part, r1) =>
  if 24 ≤ part ∧ part ≤ 95 then
    getBits 1 r1 >>= fun (b, r2) => .ok (part * 2 + b - 48, r2)
  else if 100 ≤ part then
    getBits 2 r1 >>= fun (b2, r2) => .ok (part * 4 + b2 - 400 + 144, r2)
  else if part ≤ 23 then .ok (part + 256, r1)
  else
    getBits 1 r1 >>= fun (b, r2) => .ok (part * 2 + b - 192 + 280, r2)

/-- The 8-bit fixed code 11000000 of length symbol 280, followed by
enough zero padding for its four extra bits and a distance code. -/
def symbol280Bits : List Bool :=
  [true, true, false, false, false, false, false, false] ++ List.replicate 30 false

/-- C1: on input holding the 8-bit fixed code of symbol 280, the decoder
does not extend the 7-bit peek 1100000 to 8 bits: because the source's
range test `part <= 0010111` uses an octal literal (4169) where binary
0b0010111 was intended, the prefix is treated as a 7-bit length symbol
of size 96 + 2 = 98, and `parseLongerSize(98)` then asks
`getBitsForwardOrder` for `(98 - 7) >> 2 = 22` extra bits, an
out-of-bounds read of the 17-entry `upperRemovals` table.  A decoder
following the specification's words decodes symbol 280 from the 8 bits.
-/
theorem fixedStep_octal_bug :
    fixedStep symbol280Bits = .error Err.undefinedBehavior ∧
    specFixedSymbol symbol280Bits = .ok (280, List.replicate 30 false) := by
  decide

/-! ## Code-length sequence decoding (`EncodedTable` constructor, C2) -/

/-- Write `v` into `count` consecutive entries of `l` starting at `i`
(the source's `for (int j = i; j < i + copy; j++) codes[j].length = v`). -/
def setRange (l : List ℕ) (i count v : ℕ) : List ℕ :=
  (List.range count).foldl (fun acc j => acc.set (i + j) v) l

/-- The code-length reading loop of the `EncodedTable` constructor
(source lines 485–517), parametrised by the already-decoded meta-symbol
stream: each element is the decoded symbol (0..18) paired with the value
of its extra bits (2 bits for 16, 3 for 17, 7 for 18, masked
accordingly).  `maxSize` is the `MaxSize` template argument (the
`codes` array size, 288 or 31); `realSize` the declared total.
Mirrors the source exactly: symbols below 16 store one length; 16 at
position 0 throws ("Invalid lookback position", a `MalformedHeader`-kind
error); repeat/zero runs write `copy`/`zeroCount` entries with NO check
against `realSize` — the loop just exits once `i ≥ realSize` — and a run
extending past `maxSize` writes out of the `codes` array's bounds
(`undefinedBehavior`). -/
def readCodeLengths (maxSize realSize : ℕ) : List (ℕ × ℕ) → ℕ → List ℕ → Except Err (List ℕ)
  | syms, i, codes =>
    if i < realSize then
      match syms with
      | [] => .error .unexpectedEndOfStream
      | (sym, extra) :: rest =>
        if sym < 16 then
          readCodeLengths maxSize realSize rest (i + 1) (codes.set i sym)
        else if sym = 16 then
          if i = 0 then .error .malformedHeader
          else
            let copy := extra % 4 + 3
            if i + copy ≤ maxSize then
              readCodeLengths maxSize realSize rest (i + copy)
                (setRange codes i copy (codes.getD (i - 1) 0))
            else .error .undefinedBehavior
        else
          let zeroCount := if sym = 17 then extra % 8 + 3 else extra % 128 + 11
          if i + zeroCount ≤ maxSize then
            readCodeLengths maxSize realSize rest (i + zeroCount) (setRange codes i zeroCount 0)
          else .error .undefinedBehavior
    else .ok codes

/-- C2: decoding a code-length sequence. A repeat symbol 16 at position 0
does fail with a `MalformedHeader`-kind error, as claimed; but a run
that over-runs the declared total does NOT fail: for a distance table
with declared total 1 (HDIST = 0), a zero-run symbol 17 with extra bits
0 writes 3 entries — 2 past the declared total — and the loop exits
successfully, where the claim requires a `MalformedHeader`-kind error. -/
theorem readCodeLengths_checks :
    readCodeLengths 31 1 [(16, 0)] 0 (List.replicate 31 0) = .error Err.malformedHeader ∧
    readCodeLengths 31 1 [(17, 0)] 0 (List.replicate 31 0) = .ok (List.replicate 31 0) := by
  decide

/-! ## Stored blocks (`LiteralState`, C7) -/

/-- `ByteInput::getInteger` with a byte-level input stream: assemble
`width` bytes little-endian (`memcpy` into an integer on a
little-endian machine); `ensureSize` throws `UnexpectedEndOfStream`
when the input cannot supply them. -/
def leVal (bytes : List ℕ) : ℕ :=
  bytes.foldr (fun b acc => b + 256 * acc) 0

/-- `ByteInput::getInteger(width)` over a byte list. -/
def byteGetInteger (width : ℕ) (input : List ℕ) : Except Err (ℕ × List ℕ) :=
  if input.length < width then .error .unexpectedEndOfStream
  else .ok (leVal (input.take width), input.drop width)

/-- The `LiteralState` constructor (source lines 644–651): read `LEN`
and `NLEN` as little-endian 16-bit integers (`getBytes(2)` twice) and
throw a `CorruptedLiteralBlock`-kind error when
`(~LEN & 0xffff) != NLEN`; on naturals `~x & 0xffff = 65535 - x` for
`x < 2^16`.  Returns `bytesLeft = LEN` and the remaining input. -/
def literalHeader (input : List ℕ) : Except Err (ℕ × List ℕ) :=
  byteGetInteger 2 input >>= fun (length, r1) =>
  byteGetInteger 2 r1 >>= fun (antiLength, r2) =>
  if 65535 - length ≠ antiLength then .error .corruptedLiteralBlock
  else .ok (length, r2)

/-- Driving `LiteralState::parseSome` (source lines 653–665) to
completion: each call is given the window capacity `available()` for
that call (the list `avails`), pulls a chunk with `getRange` (modelled
as taking up to the requested count from the remaining input) and
appends it to the output.  A call with `available() > bytesLeft`
finishes the block once nothing is left; otherwise the block yields and
the next capacity is used.  Returns the bytes appended and the
remaining input, or `none` when the capacity list is exhausted before
the block completes. -/
def literalDrive (bytesLeft : ℕ) (input : List ℕ) : List ℕ → Option (List ℕ × List ℕ)
  | [] => none
  | a :: rest =>
    if a > bytesLeft then
      let chunk := input.take bytesLeft
      if bytesLeft - chunk.length > 0 then
        (literalDrive (bytesLeft - chunk.length) (input.drop bytesLeft) rest).map
          (fun (out, rem) => (chunk ++ out, rem))
      else .some (chunk, input.drop bytesLeft)
    else
      let chunk := input.take a
      (literalDrive (bytesLeft - chunk.length) (input.drop a) rest).map
        (fun (out, rem) => (chunk ++ out, rem))

/-- C7: the stored-block header fails with a `CorruptedLiteralBlock`-kind
error exactly when the little-endian 16-bit `NLEN` differs from
`~LEN & 0xFFFF = 65535 - LEN`; and whenever the parse loop completes it
has appended exactly the first `LEN` following input bytes to the
output, across however many yields the capacity sequence forces. -/
theorem literal_block_exact :
    (∀ a b c d rest, a < 256 → b < 256 → c < 256 → d < 256 →
      (literalHeader (a :: b :: c :: d :: rest) = .ok (a + 256 * b, rest) ↔
        c + 256 * d = 65535 - (a + 256 * b)) ∧
      (c + 256 * d ≠ 65535 - (a + 256 * b) →
        literalHeader (a :: b :: c :: d :: rest) = .error Err.corruptedLiteralBlock)) ∧
    (∀ avails len input out rem, len ≤ input.length →
      literalDrive len input avails = .some (out, rem) →
      out = input.take len ∧ rem = input.drop len) := by
  constructor
  · intro a b c d rest ha hb hc hd
    have e1 : byteGetInteger 2 (a :: b :: c :: d :: rest) = .ok (a + 256 * b, c :: d :: rest) := by
      simp only [byteGetInteger, List.length_cons]
      rw [if_neg (by omega)]
      have ht : List.take 2 (a :: b :: c :: d :: rest) = [a, b] := rfl
      have hd2 : List.drop 2 (a :: b :: c :: d :: rest) = c :: d :: rest := rfl
      rw [ht, hd2]
      simp only [leVal, List.foldr_cons, List.foldr_nil, Except.ok.injEq, Prod.mk.injEq]
      exact ⟨by ring, trivial⟩
    have e2 : byteGetInteger 2 (c :: d :: rest) = .ok (c + 256 * d, rest) := by
      simp only [byteGetInteger, List.length_cons]
      rw [if_neg (by omega)]
      have ht : List.take 2 (c :: d :: rest) = [c, d] := rfl
      have hd2 : List.drop 2 (c :: d :: rest) = rest := rfl
      rw [ht, hd2]
      simp only [leVal, List.foldr_cons, List.foldr_nil, Except.ok.injEq, Prod.mk.injEq]
      exact ⟨by ring, trivial⟩
    have h2 : literalHeader (a :: b :: c :: d :: rest) =
        (if 65535 - (a + 256 * b) ≠ c + 256 * d then .error Err.corruptedLiteralBlock
         else .ok (a + 256 * b, rest)) := by
      simp only [literalHeader, bind, Except.bind, e1, e2]
    constructor
    · rw [h2]
      split_ifs with h
      · constructor
        · intro hcontra
          exact absurd hcontra (by simp)
        · intro hcontra
          omega
      · simp only [Except.ok.injEq, Prod.mk.injEq, true_and, true_iff]
        omega
    · intro hne
      rw [h2, if_pos (by omega)]
  · intro avails
    induction avails with
    | nil =>
      intro len input out rem _ h
      rw [show literalDrive len input [] = none from rfl] at h
      exact Option.noConfusion h
    | cons a rest ih =>
      intro len input out rem hlen h
      simp only [literalDrive] at h
      have htake : (input.take len).length = len := by
        simp only [List.length_take]
        omega
      split_ifs at h with h1 h2
      · rw [htake] at h2
        omega
      · rw [Option.some.injEq, Prod.mk.injEq] at h
        exact ⟨h.1.symm, h.2.symm⟩
      · have hta : (input.take a).length = a := by
          simp only [List.length_take]
          omega
        rw [hta] at h
        cases hrec : literalDrive (len - a) (input.drop a) rest with
        | none =>
          rw [hrec] at h
          exact absurd h (by simp)
        | some p =>
          obtain ⟨out1, rem1⟩ := p
          rw [hrec] at h
          have h5 : some (input.take a ++ out1, rem1) = some (out, rem) := h
          clear h
          rw [Option.some.injEq, Prod.mk.injEq] at h5
          have h := h5
          obtain ⟨ho, hr⟩ := ih (len - a) (input.drop a) out1 rem1
            (by simp only [List.length_drop]; omega) hrec
          have hsplit : input.take len = input.take a ++ (input.drop a).take (len - a) := by
            rw [← List.take_add]
            congr 1
            omega
          have hdropped : (input.drop a).drop (len - a) = input.drop len := by
            rw [List.drop_drop]
            congr 1
            omega
          constructor
          · rw [← h.1, ho, hsplit]
          · rw [← h.2, hr, hdropped]

/-- Witness for `literal_block_exact`: LEN=2, NLEN=65533 passes the
check, and a two-call drive (capacities 1 then 5) appends exactly the
first 2 input bytes. -/
theorem literal_block_exact_witness :
    (literalHeader [2, 0, 253, 255, 9] = .ok (2 + 256 * 0, [9]) ↔
      253 + 256 * 255 = 65535 - (2 + 256 * 0)) ∧
    (literalDrive 2 [7, 8, 9] [1, 5] = .some ([7, 8], [9]) ∧
      ([7, 8] : List ℕ) = [7, 8, 9].take 2 ∧ ([9] : List ℕ) = [7, 8, 9].drop 2) :=
  ⟨(literal_block_exact.1 2 0 253 255 [9] (by decide) (by decide) (by decide) (by decide)).1,
   by decide,
   literal_block_exact.2 [1, 5] 2 [7, 8, 9] [7, 8] [9] (by decide) (by decide)⟩

/-! ## GZIP trailer handling (`IGzFile::onFinish`, C10) -/

/-- `IGzFile::onFinish` (source lines 1065–1072): unconditionally read a
32-bit little-endian integer (the CRC-32 trailer field) from the input;
when `Settings::verifyChecksum` holds (a compile-time `if constexpr`),
compare it with the checksum computed over the output and throw a
`ChecksumMismatch`-kind error on disagreement.  The following ISIZE
field is never read.  Returns the expected CRC and the remaining input.
-/
def onFinish (input : List ℕ) (verifyChecksum : Bool) (realCrc : ℕ) :
    Except Err (ℕ × List ℕ) :=
  byteGetInteger 4 input >>= fun (expectedCrc, rest) =>
  if verifyChecksum then
    if expectedCrc ≠ realCrc then .error .checksumMismatch else .ok (expectedCrc, rest)
  else .ok (expectedCrc, rest)

/-- C10: on stream completion the GZIP reader consumes exactly the 4
CRC-32 trailer bytes whatever `verifyChecksum` is (whenever it returns,
the remaining input is `input.drop 4`, so the 4-byte ISIZE field that
follows is untouched); with verification off it never compares (it
succeeds on any 4 available bytes); with verification on it fails with
a `ChecksumMismatch`-kind error exactly when the field disagrees with
the computed checksum. -/
theorem onFinish_trailer :
    (∀ input verify crc r rest, onFinish input verify crc = .ok (r, rest) →
      rest = input.drop 4 ∧ r = leVal (input.take 4)) ∧
    (∀ input crc, 4 ≤ input.length →
      onFinish input false crc = .ok (leVal (input.take 4), input.drop 4)) ∧
    (∀ input crc, 4 ≤ input.length →
      (onFinish input true crc = .error Err.checksumMismatch ↔ leVal (input.take 4) ≠ crc)) := by
  refine ⟨?_, ?_, ?_⟩
  · intro input verify crc r rest h
    simp only [onFinish, byteGetInteger, bind, Except.bind] at h
    by_cases hlen : input.length < 4
    · rw [if_pos hlen] at h
      exact absurd h (by simp)
    · rw [if_neg hlen] at h
      cases verify
      · have h3 : (Except.ok (leVal (input.take 4), input.drop 4) : Except Err (ℕ × List ℕ)) =
            .ok (r, rest) := h
        have h4 := Except.ok.inj h3
        rw [Prod.mk.injEq] at h4
        exact ⟨h4.2.symm, h4.1.symm⟩
      · have h3 : (if leVal (input.take 4) ≠ crc
            then (Except.error Err.checksumMismatch : Except Err (ℕ × List ℕ))
            else .ok (leVal (input.take 4), input.drop 4)) = .ok (r, rest) := h
        by_cases hc : leVal (input.take 4) ≠ crc
        · rw [if_pos hc] at h3
          exact absurd h3 (by simp)
        · rw [if_neg hc] at h3
          have h4 := Except.ok.inj h3
          rw [Prod.mk.injEq] at h4
          exact ⟨h4.2.symm, h4.1.symm⟩
  · intro input crc hlen
    simp only [onFinish, byteGetInteger, bind, Except.bind]
    rw [if_neg (by omega)]
    rfl
  · intro input crc hlen
    simp only [onFinish, byteGetInteger, bind, Except.bind]
    rw [if_neg (by omega)]
    show (if leVal (input.take 4) ≠ crc then (.error .checksumMismatch : Except Err (ℕ × List ℕ))
      else .ok (leVal (input.take 4), input.drop 4)) = .error Err.checksumMismatch ↔
      leVal (input.take 4) ≠ crc
    split_ifs with h <;> simp [h]

/-- Witness for `onFinish_trailer`: a six-byte tail whose first four
bytes encode 1 is consumed down to the last two bytes. -/
theorem onFinish_trailer_witness :
    (([0, 0, 5, 6] : List ℕ) = [1, 0, 0, 0, 5, 6].drop 2 ∧
      onFinish [1, 0, 0, 0, 5, 6] false 0 =
        .ok (leVal ([1, 0, 0, 0, 5, 6].take 4), [1, 0, 0, 0, 5, 6].drop 4)) ∧
    (onFinish [1, 0, 0, 0, 5, 6] true 0 = .error Err.checksumMismatch ↔
      leVal ([1, 0, 0, 0, 5, 6].take 4) ≠ 0) :=
  ⟨⟨by decide, onFinish_trailer.2.1 [1, 0, 0, 0, 5, 6] 0 (by decide)⟩,
   onFinish_trailer.2.2 [1, 0, 0, 0, 5, 6] 0 (by decide)⟩

/-! ## Output window (`ByteOutput`, C8) -/

/-- State of `ByteOutput`: `buffer` holds the valid bytes
(`buffer[0..used)`, so `used = buffer.length`), `consumed` the index up
to which bytes were already returned, `expectsMore` the flag cleared by
`done()`.  `folded` models the checksum state as the exact list of bytes
folded into it, in fold order (sufficient for order/multiplicity
claims). -/
structure OutState where
  buffer : List ℕ
  consumed : ℕ
  expectsMore : Bool
  folded : List ℕ
deriving DecidableEq, Repr

/-- Concatenation of a list of returned slices. -/
def flatConcat (ls : List (List ℕ)) : List ℕ :=
  ls.foldr (fun a b => a ++ b) []

/-- `ByteOutput::addByte`: `checkSize()` throws a logic error
(`Internal` kind) on overflow, else append one byte. -/
def addByteOp (maxBuf : ℕ) (st : OutState) (b : ℕ) : Except Err OutState :=
  if st.buffer.length + 1 > maxBuf then .error .internalBug
  else .ok { st with buffer := st.buffer ++ [b] }

/-- `ByteOutput::addBytes`. -/
def addBytesOp (maxBuf : ℕ) (st : OutState) (bs : List ℕ) : Except Err OutState :=
  if st.buffer.length + bs.length > maxBuf then .error .internalBug
  else .ok { st with buffer := st.buffer ++ bs }

/-- The `bytesKept` computation of `ByteOutput::consume` (source lines
405–411): `bytesKept = min(bytesToKeep, consumed)`, raised to
`minimum = minOutputBufferSize - used + consumed` when below it.  The
source works in C++ `int`s, so this is `Int` arithmetic. -/
def consumeKept (minBuf : ℕ) (st : OutState) (keep : ℕ) : ℤ :=
  let bytesKept0 : ℤ := min (keep : ℤ) (st.consumed : ℤ)
  let minimum : ℤ := (minBuf : ℤ) - st.buffer.length + st.consumed
  if bytesKept0 < minimum then minimum else bytesKept0

/-- `ByteOutput::consume` (source lines 394–422).  When `done()` was
already called the remaining tail `buffer[consumed..used)` is folded
into the checksum and returned without sliding.  Otherwise the window
slides: `removing = consumed - bytesKept` leading bytes are dropped
(`memmove`), `used` shrinks, `consumed` is set to the new `used`, and
the slice `buffer[bytesKept..consumed)` — the bytes produced since the
previous call — is folded into the checksum and returned.  A negative
`removing` throws a logic error (`Internal` kind). -/
def consumeOp (minBuf : ℕ) (st : OutState) (keep : ℕ) : Except Err (List ℕ × OutState) :=
  if st.expectsMore = false then
    let ret := st.buffer.drop st.consumed
    .ok (ret, { st with consumed := st.buffer.length, folded := st.folded ++ ret })
  else
    let bytesKept := consumeKept minBuf st keep
    let removing := (st.consumed : ℤ) - bytesKept
    if removing < 0 then .error .internalBug
    else
      let buffer2 := st.buffer.drop removing.toNat
      let ret := buffer2.drop bytesKept.toNat
      .ok (ret, ⟨buffer2, buffer2.length, st.expectsMore, st.folded ++ ret⟩)

/-- `ByteOutput::done`. -/
def doneOp (st : OutState) : OutState :=
  { st with expectsMore := false }

/-- One operation applied to a `ByteOutput` by the decoder or the
consumer during a session. -/
inductive OutOp where
  | addByte (b : ℕ)
  | addBytes (bs : List ℕ)
  | consume (keep : ℕ)
  | done
deriving DecidableEq, Repr

/-- Apply one operation to (state, returned slices so far, bytes emitted
into the window so far). -/
def outStep (minBuf maxBuf : ℕ) (acc : OutState × List (List ℕ) × List ℕ) (op : OutOp) :
    Except Err (OutState × List (List ℕ) × List ℕ) :=
  match op with
  | .addByte b => (addByteOp maxBuf acc.1 b).map fun st2 => (st2, acc.2.1, acc.2.2 ++ [b])
  | .addBytes bs => (addBytesOp maxBuf acc.1 bs).map fun st2 => (st2, acc.2.1, acc.2.2 ++ bs)
  | .consume keep =>
    (consumeOp minBuf acc.1 keep).map fun (r, st2) => (st2, acc.2.1 ++ [r], acc.2.2)
  | .done => .ok (doneOp acc.1, acc.2.1, acc.2.2)

/-- Run a whole session of window operations. -/
def runOut (minBuf maxBuf : ℕ) : List OutOp → (OutState × List (List ℕ) × List ℕ) →
    Except Err (OutState × List (List ℕ) × List ℕ)
  | [], acc => .ok acc
  | op :: ops, acc => outStep minBuf maxBuf acc op >>= runOut minBuf maxBuf ops

/-- The empty initial window. -/
def initOut : OutState × List (List ℕ) × List ℕ :=
  (⟨[], 0, true, []⟩, [], [])

/-- Session invariant: `consumed` stays within the buffer, the returned
slices followed by the not-yet-returned tail reconstruct exactly the
emitted byte stream, and the checksum has folded exactly the returned
bytes, in order. -/
def OutInv (acc : OutState × List (List ℕ) × List ℕ) : Prop :=
  acc.1.consumed ≤ acc.1.buffer.length ∧
  flatConcat acc.2.1 ++ acc.1.buffer.drop acc.1.consumed = acc.2.2 ∧
  acc.1.folded = flatConcat acc.2.1

theorem flatConcat_append_single (rs : List (List ℕ)) (r : List ℕ) :
    flatConcat (rs ++ [r]) = flatConcat rs ++ r := by
  induction rs with
  | nil => simp [flatConcat]
  | cons a t ih => simp only [flatConcat, List.foldr_cons, List.cons_append] at *
                   rw [ih, List.append_assoc]

theorem consumeKept_nonneg (minBuf : ℕ) (st : OutState) (keep : ℕ) :
    0 ≤ consumeKept minBuf st keep := by
  simp only [consumeKept]
  split_ifs <;> omega

/-- Each window operation preserves the session invariant. -/
theorem outStep_inv (minBuf maxBuf : ℕ) (acc acc2 : OutState × List (List ℕ) × List ℕ)
    (op : OutOp) (hinv : OutInv acc) (h : outStep minBuf maxBuf acc op = .ok acc2) :
    OutInv acc2 := by
  obtain ⟨⟨buf, cons, em, fold⟩, rets, emitted⟩ := acc
  obtain ⟨hc, hstream, hfold⟩ := hinv
  dsimp only at hc hstream hfold
  cases op with
  | addByte b =>
    simp only [outStep, addByteOp, Except.map] at h
    by_cases hof : buf.length + 1 > maxBuf
    · rw [if_pos hof] at h
      exact absurd h (by simp)
    · rw [if_neg hof] at h
      have h2 : ((⟨buf ++ [b], cons, em, fold⟩ : OutState), rets, emitted ++ [b]) = acc2 :=
        Except.ok.inj h
      subst h2
      refine ⟨?_, ?_, hfold⟩
      · dsimp only
        simp only [List.length_append]
        omega
      · dsimp only
        rw [List.drop_append_of_le_length hc, ← List.append_assoc, hstream]
  | addBytes bs =>
    simp only [outStep, addBytesOp, Except.map] at h
    by_cases hof : buf.length + bs.length > maxBuf
    · rw [if_pos hof] at h
      exact absurd h (by simp)
    · rw [if_neg hof] at h
      have h2 : ((⟨buf ++ bs, cons, em, fold⟩ : OutState), rets, emitted ++ bs) = acc2 :=
        Except.ok.inj h
      subst h2
      refine ⟨?_, ?_, hfold⟩
      · dsimp only
        simp only [List.length_append]
        omega
      · dsimp only
        rw [List.drop_append_of_le_length hc, ← List.append_assoc, hstream]
  | consume keep =>
    simp only [outStep, consumeOp, Except.map] at h
    by_cases hdone : em = false
    · rw [if_pos hdone] at h
      have h2 : ((⟨buf, buf.length, em, fold ++ buf.drop cons⟩ : OutState),
          rets ++ [buf.drop cons], emitted) = acc2 := Except.ok.inj h
      subst h2
      refine ⟨?_, ?_, ?_⟩
      · dsimp only
        exact le_refl _
      · dsimp only
        rw [List.drop_length, List.append_nil, flatConcat_append_single]
        exact hstream
      · dsimp only
        rw [flatConcat_append_single, hfold]
    · rw [if_neg hdone] at h
      set k := consumeKept minBuf ⟨buf, cons, em, fold⟩ keep with hkdef
      have hk0 : 0 ≤ k := consumeKept_nonneg minBuf ⟨buf, cons, em, fold⟩ keep
      by_cases hrem : ((cons : ℤ) - k) < 0
      · rw [if_pos hrem] at h
        exact absurd h (by simp)
      · rw [if_neg hrem] at h
        have h2 : ((⟨buf.drop ((cons : ℤ) - k).toNat,
            (buf.drop ((cons : ℤ) - k).toNat).length, em,
            fold ++ (buf.drop ((cons : ℤ) - k).toNat).drop k.toNat⟩ : OutState),
            rets ++ [(buf.drop ((cons : ℤ) - k).toNat).drop k.toNat], emitted) = acc2 :=
          Except.ok.inj h
        subst h2
        have hidx : (buf.drop ((cons : ℤ) - k).toNat).drop k.toNat = buf.drop cons := by
          rw [List.drop_drop]
          congr 1
          omega
        refine ⟨?_, ?_, ?_⟩
        · dsimp only
          exact le_refl _
        · dsimp only
          rw [List.drop_length, List.append_nil, flatConcat_append_single, hidx]
          exact hstream
        · dsimp only
          rw [flatConcat_append_single, hfold]
  | done =>
    simp only [outStep] at h
    have h2 : (doneOp ⟨buf, cons, em, fold⟩, rets, emitted) = acc2 := Except.ok.inj h
    subst h2
    dsimp only [doneOp]
    exact ⟨hc, hstream, hfold⟩

/-- Running a session from an invariant-respecting start preserves the
invariant. -/
theorem runOut_inv (minBuf maxBuf : ℕ) :
    ∀ (ops : List OutOp) (acc acc2 : OutState × List (List ℕ) × List ℕ),
      OutInv acc → runOut minBuf maxBuf ops acc = .ok acc2 → OutInv acc2 := by
  intro ops
  induction ops with
  | nil =>
    intro acc acc2 hinv h
    have h2 := Except.ok.inj h
    subst h2
    exact hinv
  | cons op rest ih =>
    intro acc acc2 hinv h
    simp only [runOut, bind, Except.bind] at h
    cases hstep : outStep minBuf maxBuf acc op with
    | error e => rw [hstep] at h; exact absurd h (by simp)
    | ok acc1 =>
      rw [hstep] at h
      exact ih acc1 acc2 (outStep_inv minBuf maxBuf acc acc1 op hinv hstep) h

/-- C8: for any session of window operations that runs without an
internal error, the slices returned by the `consume` calls concatenate —
together with the bytes not yet handed out — to exactly the emitted
output stream (so consecutive `consume` results concatenate to the
decompressed output, and once `done()` and a final `consume` have run
the pending tail is empty), and the checksum has folded exactly the
returned bytes, once each, in emission order (the fold happens in
`consume` before the slice is returned). -/
theorem consume_stream_exact (minBuf maxBuf : ℕ) (ops : List OutOp)
    (st : OutState) (rets : List (List ℕ)) (em : List ℕ)
    (h : runOut minBuf maxBuf ops initOut = .ok (st, rets, em)) :
    flatConcat rets ++ st.buffer.drop st.consumed = em ∧ st.folded = flatConcat rets := by
  have hinit : OutInv initOut := by
    refine ⟨by simp [initOut], by simp [initOut, flatConcat], by simp [initOut, flatConcat]⟩
  have hfin := runOut_inv minBuf maxBuf ops initOut (st, rets, em) hinit h
  exact ⟨hfin.2.1, hfin.2.2⟩

/-- Witness for `consume_stream_exact`: a session that emits byte 7,
finishes, and consumes it in one final slice; the returned slices
concatenate to the emitted stream `[7]` and the checksum folded exactly
`[7]`. -/
theorem consume_stream_exact_witness :
    flatConcat [[7]] ++ (OutState.mk [7] 1 false [7]).buffer.drop
      (OutState.mk [7] 1 false [7]).consumed = [7] ∧
    (OutState.mk [7] 1 false [7]).folded = flatConcat [[7]] :=
  consume_stream_exact 0 8 [.addByte 7, .done, .consume 0]
    ⟨[7], 1, false, [7]⟩ [[7]] [7] (by decide)

/-! ## Line reader (`IDeflateArchive::readByLines`, C3) -/

/-- The span `[start, it)` of a batch, as built by
`std::span<const char>(start, it)` from two iterators into the batch. -/
def sliceSpan (batch : List ℕ) (s i : ℕ) : List ℕ :=
  (batch.drop s).take (i - s)

/-- The character loop of `readByLines` (source lines 930–940) over one
batch: `it` walks the batch (the remaining suffix is the list argument),
`start` marks the start of the current record, `wasSeparator` defers the
`start = it` reset to the next character; on a separator the span
`[start, it)` is passed to the callback (collected in `acc`).  At the
end of the batch `keeping = batch.end() - start` is returned together
with the final `wasSeparator`. -/
def scanGo (sep : ℕ) (batch : List ℕ) :
    List ℕ → ℕ → ℕ → Bool → List (List ℕ) → List (List ℕ) × ℕ × Bool
  | [], _it, start, wasSep, acc => (acc, batch.length - start, wasSep)
  | c :: rem, it, start, wasSep, acc =>
    let start2 := cond wasSep it start
    if c = sep then
      scanGo sep batch rem (it + 1) start2 true (acc ++ [sliceSpan batch start2 it])
    else scanGo sep batch rem (it + 1) start2 false acc

/-- `readByLines` (source lines 924–949) for a decompressed text
delivered in a single `readSome` batch (`keeping` starts at 0 and
`wasSeparator` at `false`; the trailing handler fires after the loop):
returns the list of callback payloads in call order. -/
def readByLinesSingle (sep : ℕ) (text : List ℕ) : List (List ℕ) :=
  let r := scanGo sep text text 0 0 false []
  if 0 < r.2.1 then
    if r.2.2 then r.1 ++ [[]] else r.1 ++ [text.drop (text.length - r.2.1)]
  else r.1

/-- Structural reformulation of the batch loop used to reason about
`scanGo`: `cur` is the current partial record (the bytes of
`[start, it)`). -/
def loopModel (sep : ℕ) : List ℕ → List ℕ → List (List ℕ) × ℕ × Bool
  | cur, [] => ([], cur.length, false)
  | cur, c :: rem =>
    if c = sep then
      match rem with
      | [] => ([cur], cur.length + 1, true)
      | _ :: _ => ((cur :: (loopModel sep [] rem).1, (loopModel sep [] rem).2))
    else loopModel sep (cur ++ [c]) rem

/-- Separator-split of a byte list: `k` separators give `k + 1` pieces. -/
def mySplit (sep : ℕ) : List ℕ → List (List ℕ)
  | [] => [[]]
  | c :: rest =>
    if c = sep then [] :: mySplit sep rest
    else
      match mySplit sep rest with
      | [] => [[c]]
      | p :: ps => (c :: p) :: ps

/-- Joining a piece list with the separator. -/
def joinSep (sep : ℕ) : List (List ℕ) → List ℕ
  | [] => []
  | [a] => a
  | a :: b :: rest => a ++ sep :: joinSep sep (b :: rest)

theorem mySplit_ne_nil (sep : ℕ) (l : List ℕ) : mySplit sep l ≠ [] := by
  cases l with
  | nil => simp [mySplit]
  | cons c rest =>
    simp only [mySplit]
    split_ifs
    · simp
    · cases h : mySplit sep rest <;> simp

theorem mySplit_length (sep : ℕ) (l : List ℕ) :
    (mySplit sep l).length = l.count sep + 1 := by
  induction l with
  | nil => simp [mySplit]
  | cons c rest ih =>
    simp only [mySplit]
    split_ifs with hcs
    · simp only [List.length_cons, ih, List.count_cons, hcs]
      simp
    · cases h : mySplit sep rest with
      | nil => exact absurd h (mySplit_ne_nil sep rest)
      | cons p ps =>
        rw [h] at ih
        simp only [List.length_cons] at ih ⊢
        simp only [List.count_cons, beq_iff_eq]
        rw [if_neg hcs]
        omega

theorem joinSep_mySplit (sep : ℕ) (l : List ℕ) : joinSep sep (mySplit sep l) = l := by
  induction l with
  | nil => rfl
  | cons c rest ih =>
    simp only [mySplit]
    split_ifs with hcs
    · cases h : mySplit sep rest with
      | nil => exact absurd h (mySplit_ne_nil sep rest)
      | cons p ps =>
        rw [h] at ih
        subst hcs
        show joinSep c ([] :: p :: ps) = c :: rest
        simp only [joinSep, List.nil_append]
        rw [ih]
    · cases h : mySplit sep rest with
      | nil => exact absurd h (mySplit_ne_nil sep rest)
      | cons p ps =>
        rw [h] at ih
        cases ps with
        | nil =>
          simp only [joinSep] at ih ⊢
          rw [ih]
        | cons q qs =>
          simp only [joinSep] at ih ⊢
          rw [← ih]
          simp [List.cons_append]

theorem mySplit_sepFree (sep : ℕ) (l : List ℕ) (h : sep ∉ l) : mySplit sep l = [l] := by
  induction l with
  | nil => rfl
  | cons c rest ih =>
    have hcs : ¬(c = sep) := by
      intro e
      exact h (by rw [e]; exact List.mem_cons_self sep rest)
    have hrest : sep ∉ rest := fun hm => h (List.mem_cons_of_mem c hm)
    simp only [mySplit]
    rw [if_neg hcs, ih hrest]

theorem mySplit_append_sep (sep : ℕ) (l1 l2 : List ℕ) (h : sep ∉ l1) :
    mySplit sep (l1 ++ sep :: l2) = l1 :: mySplit sep l2 := by
  induction l1 with
  | nil =>
    simp [mySplit]
  | cons c t ih =>
    have hcs : ¬(c = sep) := by
      intro e
      exact h (by rw [e]; exact List.mem_cons_self sep t)
    have ht : sep ∉ t := fun hm => h (List.mem_cons_of_mem c hm)
    simp only [List.cons_append, mySplit]
    rw [if_neg hcs]
    rw [show t.append (sep :: l2) = t ++ sep :: l2 from rfl, ih ht]

/-- Characterisation of the structural loop: running it on `cur ++ rem`
with `sep ∉ cur` emits all pieces of the separator-split except the
last; the final `wasSeparator` tells whether the last piece is the empty
piece after a trailing separator, and `keeping` covers the pending
record. -/
theorem loopModel_spec (sep : ℕ) :
    ∀ (rem cur : List ℕ), sep ∉ cur →
      ∃ lastP, mySplit sep (cur ++ rem) = (loopModel sep cur rem).1 ++ [lastP] ∧
        ((loopModel sep cur rem).2.2 = true → lastP = [] ∧ 0 < (loopModel sep cur rem).2.1) ∧
        ((loopModel sep cur rem).2.2 = false →
          (loopModel sep cur rem).2.1 = lastP.length ∧ lastP <:+ (cur ++ rem) ∧
          (cur ++ rem = [] ∨ lastP ≠ [])) := by
  intro rem
  induction rem with
  | nil =>
    intro cur hcur
    refine ⟨cur, ?_, ?_, ?_⟩
    · rw [List.append_nil, mySplit_sepFree sep cur hcur]
      simp [loopModel]
    · intro ht
      simp [loopModel] at ht
    · intro _
      refine ⟨by simp [loopModel], by simp, ?_⟩
      rcases eq_or_ne cur [] with hc | hc
      · exact Or.inl (by simp [hc])
      · exact Or.inr hc
  | cons c rem ihrem =>
    intro cur hcur
    by_cases hcs : c = sep
    · cases rem with
      | nil =>
        have hlm : loopModel sep cur (c :: ([] : List ℕ)) = ([cur], cur.length + 1, true) := by
          simp only [loopModel]
          rw [if_pos hcs]
        refine ⟨[], ?_, ?_, ?_⟩
        · rw [hlm, hcs, mySplit_append_sep sep cur [] hcur]
          simp [mySplit]
        · intro _
          rw [hlm]
          exact ⟨rfl, by simp⟩
        · intro hfalse
          rw [hlm] at hfalse
          simp at hfalse
      | cons d rem2 =>
        obtain ⟨lastP, hsp, hT, hF⟩ := ihrem [] (by simp)
        simp only [List.nil_append] at hsp
        have hlm : loopModel sep cur (c :: d :: rem2) =
            (cur :: (loopModel sep [] (d :: rem2)).1, (loopModel sep [] (d :: rem2)).2) := by
          simp only [loopModel]
          rw [if_pos hcs]
        refine ⟨lastP, ?_, ?_, ?_⟩
        · rw [hlm, hcs, mySplit_append_sep sep cur (d :: rem2) hcur, hsp]
          simp
        · intro ht
          rw [hlm] at ht ⊢
          exact hT ht
        · intro hf
          rw [hlm] at hf ⊢
          obtain ⟨hk, hsuf, _⟩ := hF hf
          refine ⟨hk, ?_, ?_⟩
          · simp only [List.nil_append] at hsuf
            exact hsuf.trans ⟨cur ++ [c], by simp⟩
          · exact Or.inr (by
              rcases hF hf with ⟨_, _, hor⟩
              rcases hor with hor | hor
              · exact absurd hor (by simp)
              · exact hor)
    · have hnot : sep ∉ cur ++ [c] := by
        intro hm
        rcases List.mem_append.mp hm with h1 | h1
        · exact hcur h1
        · simp at h1
          exact hcs h1.symm
      have hlm : loopModel sep cur (c :: rem) = loopModel sep (cur ++ [c]) rem := by
        simp only [loopModel]
        rw [if_neg hcs]
      rw [show cur ++ c :: rem = (cur ++ [c]) ++ rem by simp, hlm]
      exact ihrem (cur ++ [c]) hnot

/-- The index-based batch loop of `readByLines` agrees with the
structural loop: from position `it` with record start `start`, `scanGo`
appends to `acc` exactly what `loopModel` computes on the remaining
suffix with current partial record `[start, it)`; entering with
`wasSeparator` set discards the stale partial record. -/
theorem scanGo_spec (sep : ℕ) (batch : List ℕ) :
    ∀ (rem : List ℕ) (it start : ℕ) (acc : List (List ℕ)),
      batch.drop it = rem → start ≤ it →
      scanGo sep batch rem it start false acc =
        (acc ++ (loopModel sep (sliceSpan batch start it) rem).1,
         (loopModel sep (sliceSpan batch start it) rem).2) ∧
      scanGo sep batch rem it start true acc =
        (match rem with
         | [] => (acc, batch.length - start, true)
         | _ :: _ => (acc ++ (loopModel sep [] rem).1, (loopModel sep [] rem).2)) := by
  intro rem
  induction rem with
  | nil =>
    intro it start acc hdrop hle
    have hn : batch.length ≤ it := by
      have h0 := congrArg List.length hdrop
      simp only [List.length_drop, List.length_nil] at h0
      omega
    have hlen : (sliceSpan batch start it).length = batch.length - start := by
      simp only [sliceSpan, List.length_take, List.length_drop]
      omega
    constructor
    · simp only [scanGo, loopModel]
      rw [hlen]
      simp
    · simp only [scanGo]
  | cons c rem ihrem =>
    intro it start acc hdrop hle
    have hit : it < batch.length := by
      have h0 := congrArg List.length hdrop
      simp only [List.length_drop, List.length_cons] at h0
      omega
    have hdrop1 : batch.drop (it + 1) = rem := by
      have h1 : batch.drop (it + 1) = (batch.drop it).drop 1 := by
        rw [List.drop_drop, Nat.add_comm]
      rw [h1, hdrop]
      rfl
    have hslice_self : sliceSpan batch it it = [] := by
      simp [sliceSpan]
    have hslice_one : sliceSpan batch it (it + 1) = [c] := by
      rw [show sliceSpan batch it (it + 1) = (batch.drop it).take (it + 1 - it) from rfl,
        hdrop, show it + 1 - it = 1 from by omega]
      rfl
    have hlen_slice : (sliceSpan batch start it).length = it - start := by
      simp only [sliceSpan, List.length_take, List.length_drop]
      omega
    have hslice : batch.drop start = sliceSpan batch start it ++ (c :: rem) := by
      have h2 : (batch.drop start).drop (it - start) = c :: rem := by
        rw [List.drop_drop, show start + (it - start) = it from by omega]
        exact hdrop
      conv_lhs => rw [← List.take_append_drop (it - start) (batch.drop start)]
      rw [h2]
      rfl
    have hslice_succ : sliceSpan batch start (it + 1) = sliceSpan batch start it ++ [c] := by
      rw [show sliceSpan batch start (it + 1) = (batch.drop start).take (it + 1 - start)
          from rfl, hslice,
        show it + 1 - start = (sliceSpan batch start it).length + 1 from by
          rw [hlen_slice]; omega]
      rw [List.take_append]
      rfl
    constructor
    · simp only [scanGo, Bool.cond_false]
      by_cases hcs : c = sep
      · rw [if_pos hcs]
        have hT := (ihrem (it + 1) start (acc ++ [sliceSpan batch start it]) hdrop1
          (by omega)).2
        rw [hT]
        cases rem with
        | nil =>
          have hlen1 : batch.length = it + 1 := by
            have h0 := congrArg List.length hdrop
            simp only [List.length_drop, List.length_cons, List.length_nil] at h0
            omega
          simp only [loopModel]
          rw [if_pos hcs]
          dsimp only
          rw [show batch.length - start = (sliceSpan batch start it).length + 1 from by
            rw [hlen_slice]; omega]
        | cons d rem2 =>
          simp only [loopModel]
          rw [if_pos hcs]
          dsimp only
          simp [List.append_assoc]
      · rw [if_neg hcs]
        have hF := (ihrem (it + 1) start acc hdrop1 (by omega)).1
        rw [hF, hslice_succ]
        have hlm : loopModel sep (sliceSpan batch start it) (c :: rem) =
            loopModel sep (sliceSpan batch start it ++ [c]) rem := by
          simp only [loopModel]
          rw [if_neg hcs]
        rw [hlm]
    · simp only [scanGo, Bool.cond_true]
      by_cases hcs : c = sep
      · rw [if_pos hcs]
        have hT := (ihrem (it + 1) it (acc ++ [sliceSpan batch it it]) hdrop1 (by omega)).2
        rw [hT, hslice_self]
        cases rem with
        | nil =>
          have hlen1 : batch.length = it + 1 := by
            have h0 := congrArg List.length hdrop
            simp only [List.length_drop, List.length_cons, List.length_nil] at h0
            omega
          simp only [loopModel]
          rw [if_pos hcs]
          dsimp only
          rw [show batch.length - it = List.length ([] : List ℕ) + 1 from by
            simp only [List.length_nil]; omega]
        | cons d rem2 =>
          simp only [loopModel]
          rw [if_pos hcs]
          dsimp only
          simp [List.append_assoc]
      · rw [if_neg hcs]
        have hF := (ihrem (it + 1) it acc hdrop1 (by omega)).1
        rw [hF, hslice_one]
        have hlm : loopModel sep [] (c :: rem) = loopModel sep [c] rem := by
          simp only [loopModel]
          rw [if_neg hcs]
          rw [List.nil_append]
        rw [hlm]

/-- For a nonempty single-batch text, `readByLines` produces exactly the
separator-split of the text: `k + 1` payloads for `k` separators, the
last payload empty when the text ends with the separator. -/
theorem readByLinesSingle_eq_mySplit (sep : ℕ) (text : List ℕ) (h : text ≠ []) :
    readByLinesSingle sep text = mySplit sep text := by
  have hscan := (scanGo_spec sep text text 0 0 [] (by simp) (le_refl 0)).1
  rw [show sliceSpan text 0 0 = [] from rfl] at hscan
  obtain ⟨lastP, hsplit, hT, hF⟩ := loopModel_spec sep text [] (by simp)
  simp only [List.nil_append] at hsplit hT hF
  simp only [readByLinesSingle, hscan]
  simp only [List.nil_append]
  cases hws : (loopModel sep [] text).2.2 with
  | false =>
    obtain ⟨hkeep, hsuf, hor⟩ := hF hws
    have hlast_ne : lastP ≠ [] := by
      rcases hor with hor | hor
      · exact absurd hor h
      · exact hor
    have hkpos : 0 < (loopModel sep [] text).2.1 := by
      rw [hkeep]
      exact List.length_pos.mpr hlast_ne
    rw [if_pos hkpos, if_neg Bool.false_ne_true]
    obtain ⟨t, ht⟩ := hsuf
    have hdropeq : text.drop (text.length - (loopModel sep [] text).2.1) = lastP := by
      rw [hkeep, ← ht, List.length_append,
        show t.length + lastP.length - lastP.length = t.length from by omega]
      exact List.drop_left t lastP
    rw [hdropeq, hsplit]
  | true =>
    obtain ⟨hlp, hkpos⟩ := hT hws
    rw [if_pos hkpos, if_pos rfl]
    rw [hsplit, hlp]

/-- C3 counterexample: for the text `"a\x5cn"` (bytes 97, 10) with
separator 10, the text ends with the separator and contains one
separator, so the claim demands exactly one callback invocation; the
code invokes the callback twice — once with `"a"` and once more with an
empty span from the trailing `if (wasSeparator) reader(...)` branch. -/
theorem readByLines_trailing_separator_cex :
    readByLinesSingle 10 [97, 10] = [[97], []] ∧
    ([97, 10] : List ℕ).count 10 = 1 ∧
    (readByLinesSingle 10 [97, 10]).length ≠ 1 := by
  decide

/-- C3 (amended): for every nonempty decompressed text delivered in a
single batch with `k` occurrences of the separator, `readByLines`
invokes the callback exactly `k + 1` times — `k` times for the
separators plus one trailing invocation for every nonempty text, with an
empty trailing payload exactly when the text ends with the separator —
and concatenating the payloads with the separator reproduces the text.
-/
theorem readByLines_record_count (sep : ℕ) (text : List ℕ) (h : text ≠ []) :
    (readByLinesSingle sep text).length = text.count sep + 1 ∧
    joinSep sep (readByLinesSingle sep text) = text := by
  rw [readByLinesSingle_eq_mySplit sep text h]
  exact ⟨mySplit_length sep text, joinSep_mySplit sep text⟩

/-- Witness for `readByLines_record_count` on the one-byte text `"a"`. -/
theorem readByLines_record_count_witness :
    (readByLinesSingle 10 [97]).length = ([97] : List ℕ).count 10 + 1 ∧
    joinSep 10 (readByLinesSingle 10 [97]) = [97] :=
  readByLines_record_count 10 [97] (by decide)

end EzGz
